import Mathlib

attribute [local semireducible] Rat.add Rat.mul Rat.sub Rat.inv

/-!
# Verification of `RayTraceVoxelsOnCartesianGrid`

Shallow embedding over ℚ of the voxel ray-tracing kernel in
`src/recon_buildblock/RayTraceVoxelsOnCartesianGrid.cxx`.

The C++ function parametrises the line from `start_point` to `stop_point` by a
position `a` measured in units such that `a = d12` at the stop point, where
`d12 = norm(difference * voxel_size) * normalisation_constant` (source lines
67-68).  After `d12` is computed, `voxel_size` and `normalisation_constant`
are never used again: the whole traversal depends on the inputs only through
`start_point`, `stop_point` and the scalar `d12`.  Since `norm` is a Euclidean
square root (irrational on ℚ), the embedding takes `d12` as an explicit
parameter and characterises the values of `d12` that the source can compute by
the predicate `IsD12` (`d12 = sqrt(normSq) * normalisation_constant`).

The `while` loop (source lines 173-196) is embedded as a fuel-based recursion
`rtLoop`; the fuel `rtMeasure` is an upper bound on the number of remaining
iterations, proved sufficient whenever the per-axis increments are positive
(always the case when `d12 > 0`; when `d12 ≤ 0` the loop guard fails at once,
so the fuel never matters).
-/

/-- A 3D point/vector with rational components, standing for the source's
`CartesianCoordinate3D<float>`.  Modelled from the spec: the geometry value
types (`CartesianCoordinate3D`, not under `src/`) are "3D continuous-space
point/vector ... types with component-wise arithmetic". -/
structure Coord3 where
  x : ℚ
  y : ℚ
  z : ℚ
deriving DecidableEq

/-- Component-wise subtraction (`stop_point - start_point`, source line 53). -/
def csub (p q : Coord3) : Coord3 := ⟨p.x - q.x, p.y - q.y, p.z - q.z⟩

/-- Component-wise multiplication (`difference * voxel_size`, source line 68). -/
def cmul (p q : Coord3) : Coord3 := ⟨p.x * q.x, p.y * q.y, p.z * q.z⟩

/-- The squared Euclidean norm of a vector. -/
def normSq (p : Coord3) : ℚ := p.x ^ 2 + p.y ^ 2 + p.z ^ 2

/-- Modelled from the spec: the `stir::round` function (header `stir/round.h`,
not under `src/`) rounds to the nearest integer; the spec's §4 edge-case note
("a boundary-lying point is assigned to the voxel in the direction of travel",
illustrated by its scenarios with positive travel direction) fixes the tie at
half-integers away from zero, matching `static_cast<int>(x+0.5)` rounding. -/
def stirRound (q : ℚ) : ℤ := if 0 ≤ q then ⌊q + 1 / 2⌋ else -⌊-q + 1 / 2⌋

/-- A 3D integer voxel index (`CartesianCoordinate3D<int>`). -/
structure Vox where
  x : ℤ
  y : ℤ
  z : ℤ
deriving DecidableEq

/-- One output entry `(voxel index, weighted length)`, standing for
`ProjMatrixElemsForOneBin::value_type`; the traced LOR is the list of these,
in append order. -/
structure ProjMatrixElem where
  voxel : Vox
  value : ℚ
deriving DecidableEq

/-- The sum of the emitted weights of a traced LOR. -/
def sumValues (l : List ProjMatrixElem) : ℚ := (l.map ProjMatrixElem.value).sum

/-- `IsD12 start stop voxel_size nc d12` holds iff `d12` is the value the
source computes at lines 67-68: `norm(difference * voxel_size) * nc`, where
`nc` is the `normalisation_constant`.  The square root is characterised by its
square and sign. -/
def IsD12 (start_point stop_point voxel_size : Coord3) (nc d12 : ℚ) : Prop :=
  ∃ r : ℚ, 0 ≤ r ∧ r ^ 2 = normSq (cmul (csub stop_point start_point) voxel_size) ∧
    d12 = r * nc

/-- The threshold below which a direction component counts as parallel to the
coordinate planes (source line 87). -/
def small_difference : ℚ := 1 / 100000

/-- The per-axis step sign (source lines 70-72): `+1` if the direction
component is nonnegative, else `-1`. -/
def signOf (d : ℚ) : ℤ := if 0 ≤ d then 1 else -1

/-- The per-axis parametric increment (source lines 92-94): the sentinel
`d12 * 1000000` when the direction component is near zero, else
`d12 / |difference|`. -/
def incOf (d12 d : ℚ) : ℚ :=
  if |d| ≤ small_difference then d12 * 1000000 else d12 / |d|

/-- The "left edge" of the voxel containing a start coordinate `s`, for travel
direction `d` (source lines 98-100): `round(s) - sign * 0.5`. -/
def planeMin (s d : ℚ) : ℚ := (stirRound s : ℚ) - (signOf d : ℚ) * (1 / 2)

/-- The "right edge" of the voxel containing a stop coordinate `t`, for travel
direction `d` (source lines 102-104): `round(t) + sign * 0.5`. -/
def planeMax (t d : ℚ) : ℚ := (stirRound t : ℚ) + (signOf d : ℚ) * (1 / 2)

/-- The clipped last plane crossing of one axis, `a?end` (source lines
121-123): the sentinel when near-zero, else
`(?max - start.?) * inc * sign * 0.9999`. -/
def aendOf (d12 s t : ℚ) : ℚ :=
  if |t - s| ≤ small_difference then d12 * 1000000
  else (planeMax t (t - s) - s) * incOf d12 (t - s) * (signOf (t - s) : ℚ) * (9999 / 10000)

/-- The crossing of one axis with the previous inter-voxel plane (source lines
152-156): `-inc` when near-zero, else `(?min - start.?) * inc * sign`. -/
def a0Of (d12 s t : ℚ) : ℚ :=
  if |t - s| ≤ small_difference then -incOf d12 (t - s)
  else (planeMin s (t - s) - s) * incOf d12 (t - s) * (signOf (t - s) : ℚ)

/-- The crossing of one axis with the next inter-voxel plane, after the
pre-loop advance (source lines 162-164): `a?end` when near-zero, else the
previous-plane crossing plus the increment. -/
def a1Of (d12 s t : ℚ) : ℚ :=
  if |t - s| ≤ small_difference then aendOf d12 s t
  else a0Of d12 s t + incOf d12 (t - s)

/-- The loop-invariant context of the traversal: per-axis increments, the loop
bound `amax` (source line 125) and the per-axis step signs. -/
structure RtCtx where
  inc_x : ℚ
  inc_y : ℚ
  inc_z : ℚ
  amax : ℚ
  sign_x : ℤ
  sign_y : ℤ
  sign_z : ℤ
deriving DecidableEq

/-- The mutable state of the traversal loop: the running position `a`, the
three pending crossings `ax, ay, az` and the current voxel. -/
structure RtState where
  a : ℚ
  ax : ℚ
  ay : ℚ
  az : ℚ
  vx : ℤ
  vy : ℤ
  vz : ℤ
deriving DecidableEq

/-- The coordinate axes. -/
inductive Axis
  | X
  | Y
  | Z
deriving DecidableEq

/-- Which axis one loop iteration steps, following the source's nested strict
comparisons (lines 174, 175, 186): `if (ax < ay) { if (ax < az) X else Z }
else { if (ay < az) Y else Z }`. -/
def rtSelect (s : RtState) : Axis :=
  if s.ax < s.ay then
    if s.ax < s.az then Axis.X else Axis.Z
  else
    if s.ay < s.az then Axis.Y else Axis.Z

/-- One iteration of the traversal loop body (source lines 174-195): append an
entry for the current voxel weighted by `selected - a`, advance `a` to the
selected crossing, advance that crossing by its increment, and step the
current voxel by the axis sign. -/
def rtStep (c : RtCtx) (s : RtState) : ProjMatrixElem × RtState :=
  match rtSelect s with
  | Axis.X =>
      (⟨⟨s.vx, s.vy, s.vz⟩, s.ax - s.a⟩,
       { s with a := s.ax, ax := s.ax + c.inc_x, vx := s.vx + c.sign_x })
  | Axis.Y =>
      (⟨⟨s.vx, s.vy, s.vz⟩, s.ay - s.a⟩,
       { s with a := s.ay, ay := s.ay + c.inc_y, vy := s.vy + c.sign_y })
  | Axis.Z =>
      (⟨⟨s.vx, s.vy, s.vz⟩, s.az - s.a⟩,
       { s with a := s.az, az := s.az + c.inc_z, vz := s.vz + c.sign_z })

/-- The traversal loop `while (a < amax)` (source line 173), with explicit
fuel; returns the appended entries and the final state. -/
def rtLoop (c : RtCtx) : ℕ → RtState → List ProjMatrixElem × RtState
  | 0, s => ([], s)
  | Nat.succ n, s =>
    if s.a < c.amax then
      let p := rtStep c s
      let r := rtLoop c n p.2
      (p.1 :: r.1, r.2)
    else ([], s)

/-- An upper bound on the number of crossings of one axis still below `amax`:
`⌈(amax - a?) / inc⌉ + 1` (zero when the crossing already exceeds `amax` or
the increment is not positive). -/
def crossingsLeft (inc amax aval : ℚ) : ℕ :=
  if inc ≤ 0 then 0
  else if amax < aval then 0
  else (⌈(amax - aval) / inc⌉).toNat + 1

/-- Fuel for `rtLoop`: an upper bound on the number of remaining loop
iterations from state `s` (proved to decrease at every iteration when all
increments are positive). -/
def rtMeasure (c : RtCtx) (s : RtState) : ℕ :=
  crossingsLeft c.inc_x c.amax s.ax + crossingsLeft c.inc_y c.amax s.ay +
    crossingsLeft c.inc_z c.amax s.az + (if s.a < c.amax then 1 else 0)

/-- The loop context computed by the source before the loop (lines 70-125). -/
def rayTraceCtx (start_point stop_point : Coord3) (d12 : ℚ) : RtCtx :=
  { inc_x := incOf d12 (stop_point.x - start_point.x)
    inc_y := incOf d12 (stop_point.y - start_point.y)
    inc_z := incOf d12 (stop_point.z - start_point.z)
    amax := min (aendOf d12 start_point.x stop_point.x)
      (min (aendOf d12 start_point.y stop_point.y) (aendOf d12 start_point.z stop_point.z))
    sign_x := signOf (stop_point.x - start_point.x)
    sign_y := signOf (stop_point.y - start_point.y)
    sign_z := signOf (stop_point.z - start_point.z) }

/-- The loop state computed by the source before the loop (lines 133-164):
the starting voxel `round(?min + sign*0.5)`, the initial running position
`a = max(ax, max(ay, az))` and the three advanced crossings. -/
def rayTraceState0 (start_point stop_point : Coord3) (d12 : ℚ) : RtState :=
  { a := max (a0Of d12 start_point.x stop_point.x)
      (max (a0Of d12 start_point.y stop_point.y) (a0Of d12 start_point.z stop_point.z))
    ax := a1Of d12 start_point.x stop_point.x
    ay := a1Of d12 start_point.y stop_point.y
    az := a1Of d12 start_point.z stop_point.z
    vx := stirRound (planeMin start_point.x (stop_point.x - start_point.x) +
      (signOf (stop_point.x - start_point.x) : ℚ) * (1 / 2))
    vy := stirRound (planeMin start_point.y (stop_point.y - start_point.y) +
      (signOf (stop_point.y - start_point.y) : ℚ) * (1 / 2))
    vz := stirRound (planeMin start_point.z (stop_point.z - start_point.z) +
      (signOf (stop_point.z - start_point.z) : ℚ) * (1 / 2)) }

/-- The full run of the traversal: entries appended to the LOR, and the final
loop state. -/
def rayTraceRun (start_point stop_point : Coord3) (d12 : ℚ) :
    List ProjMatrixElem × RtState :=
  rtLoop (rayTraceCtx start_point stop_point d12)
    (rtMeasure (rayTraceCtx start_point stop_point d12)
      (rayTraceState0 start_point stop_point d12))
    (rayTraceState0 start_point stop_point d12)

/-- The embedding of `RayTraceVoxelsOnCartesianGrid`: the list of entries the
call appends to `lor`, in order.  `d12` stands for the scalar computed at
source lines 67-68 (see `IsD12`). -/
def RayTraceVoxelsOnCartesianGrid (start_point stop_point : Coord3) (d12 : ℚ) :
    List ProjMatrixElem :=
  (rayTraceRun start_point stop_point d12).1

/-- The conjunction of the six `assert`s of the source (lines 128-130: for
each axis, `fabs(difference) > small_difference || a?end > amax`; lines
167-169: for each axis, `!zero_diff || a? > amax` for the advanced
crossing). -/
def rayTraceAssertsHold (start_point stop_point : Coord3) (d12 : ℚ) : Prop :=
  (small_difference < |stop_point.x - start_point.x| ∨
    (rayTraceCtx start_point stop_point d12).amax < aendOf d12 start_point.x stop_point.x) ∧
  (small_difference < |stop_point.y - start_point.y| ∨
    (rayTraceCtx start_point stop_point d12).amax < aendOf d12 start_point.y stop_point.y) ∧
  (small_difference < |stop_point.z - start_point.z| ∨
    (rayTraceCtx start_point stop_point d12).amax < aendOf d12 start_point.z stop_point.z) ∧
  (¬ |stop_point.x - start_point.x| ≤ small_difference ∨
    (rayTraceCtx start_point stop_point d12).amax < a1Of d12 start_point.x stop_point.x) ∧
  (¬ |stop_point.y - start_point.y| ≤ small_difference ∨
    (rayTraceCtx start_point stop_point d12).amax < a1Of d12 start_point.y stop_point.y) ∧
  (¬ |stop_point.z - start_point.z| ≤ small_difference ∨
    (rayTraceCtx start_point stop_point d12).amax < a1Of d12 start_point.z stop_point.z)

instance (start_point stop_point : Coord3) (d12 : ℚ) :
    Decidable (rayTraceAssertsHold start_point stop_point d12) := by
  unfold rayTraceAssertsHold
  infer_instance

/-- Face-adjacency of two voxel indices: they differ by exactly one unit along
exactly one axis (Manhattan distance one). -/
def voxAdj (v w : Vox) : Prop :=
  |w.x - v.x| + |w.y - v.y| + |w.z - v.z| = 1

instance (v w : Vox) : Decidable (voxAdj v w) := by
  unfold voxAdj
  infer_instance

/-- The loop invariant for the axis-parallel analysis: for every near-zero
axis the pending crossing still holds the sentinel value `d12 * 10^6` and the
current voxel still holds the start voxel's index on that axis (for `z`, the
alternative arm covers the one `z` step that the tie-break performs when all
three axes are near zero, which can only happen once the loop bound is
reached); for every non-near axis the pending crossing stays within one
increment of `amax` while the loop is still running. -/
def c8Inv (p q : Coord3) (d12 : ℚ) (s : RtState) : Prop :=
  (|q.x - p.x| ≤ small_difference → s.ax = d12 * 1000000 ∧ s.vx = stirRound p.x) ∧
  (|q.y - p.y| ≤ small_difference → s.ay = d12 * 1000000 ∧ s.vy = stirRound p.y) ∧
  (|q.z - p.z| ≤ small_difference →
    ((s.az = d12 * 1000000 ∧ s.vz = stirRound p.z) ∨
      ((rayTraceCtx p q d12).amax ≤ s.a ∧ |q.x - p.x| ≤ small_difference ∧
        |q.y - p.y| ≤ small_difference))) ∧
  (¬ |q.x - p.x| ≤ small_difference →
    (s.a < (rayTraceCtx p q d12).amax →
      s.ax ≤ (rayTraceCtx p q d12).amax + (rayTraceCtx p q d12).inc_x)) ∧
  (¬ |q.y - p.y| ≤ small_difference →
    (s.a < (rayTraceCtx p q d12).amax →
      s.ay ≤ (rayTraceCtx p q d12).amax + (rayTraceCtx p q d12).inc_y)) ∧
  (¬ |q.z - p.z| ≤ small_difference →
    (s.a < (rayTraceCtx p q d12).amax →
      s.az ≤ (rayTraceCtx p q d12).amax + (rayTraceCtx p q d12).inc_z))

/-- Scaling of the loop context by a factor `k` on all parametric quantities
(used to express that `d12` scales the whole coordinate system, source
comment at lines 65-66). -/
def scaleCtx (k : ℚ) (c : RtCtx) : RtCtx :=
  ⟨k * c.inc_x, k * c.inc_y, k * c.inc_z, k * c.amax, c.sign_x, c.sign_y, c.sign_z⟩

/-- Scaling of the loop state by a factor `k` on all parametric quantities. -/
def scaleState (k : ℚ) (s : RtState) : RtState :=
  ⟨k * s.a, k * s.ax, k * s.ay, k * s.az, s.vx, s.vy, s.vz⟩

/-- Scaling of an output entry: same voxel, weight multiplied by `k`. -/
def scaleElem (k : ℚ) (e : ProjMatrixElem) : ProjMatrixElem :=
  ⟨e.voxel, k * e.value⟩

/-- The entries a pure-x traversal appends: `k` consecutive voxels starting at
x-index `m` (y- and z-index `0`), each of weight `1` (used for the long
axis-parallel run that exhibits the clipped final voxel). -/
def segList (m : ℕ) : ℕ → List ProjMatrixElem
  | 0 => []
  | Nat.succ j => ⟨⟨(m : ℤ), 0, 0⟩, 1⟩ :: segList (m + 1) j

/-- The loop state of the pure-x run from `(0,0,0)` to `(9999.7,0,0)` after
`m` entries have been appended: `a = m - 1/2`, `ax = m + 1/2`, the y and z
crossings parked at the sentinel `d12 * 10^6 = 9999700000`, current voxel
`(m,0,0)`. -/
def stateAt (m : ℕ) : RtState :=
  ⟨(m : ℚ) - 1 / 2, (m : ℚ) + 1 / 2, 9999700000, 9999700000, (m : ℤ), 0, 0⟩

/-! ## Elementary facts about the per-axis quantities -/

theorem stirRound_le (q : ℚ) : (stirRound q : ℚ) ≤ q + 1 / 2 := by
  unfold stirRound
  split_ifs with h
  · exact Int.floor_le _
  · push_cast
    have h2 := Int.sub_one_lt_floor (-q + 1 / 2)
    linarith

theorem le_stirRound (q : ℚ) : q - 1 / 2 ≤ (stirRound q : ℚ) := by
  unfold stirRound
  split_ifs with h
  · have h2 := Int.sub_one_lt_floor (q + 1 / 2)
    linarith
  · push_cast
    have h2 := Int.floor_le (-q + 1 / 2)
    linarith

theorem stirRound_intCast (n : ℤ) : stirRound (n : ℚ) = n := by
  have hhalf : ⌊(1 : ℚ) / 2⌋ = 0 := by decide
  unfold stirRound
  split_ifs with h
  · rw [add_comm, Int.floor_add_int, hhalf]
    omega
  · rw [show -(n : ℚ) + 1 / 2 = (1 : ℚ) / 2 + ((-n : ℤ) : ℚ) by push_cast; ring,
      Int.floor_add_int, hhalf]
    omega

theorem signOf_eq_one_or (d : ℚ) : signOf d = 1 ∨ signOf d = -1 := by
  unfold signOf
  split_ifs <;> simp

theorem small_difference_pos : (0 : ℚ) < small_difference := by
  norm_num [small_difference]

theorem incOf_pos {d12 : ℚ} (h : 0 < d12) (d : ℚ) : 0 < incOf d12 d := by
  unfold incOf
  split_ifs with hz
  · linarith
  · have hd : 0 < |d| := lt_trans small_difference_pos (not_le.mp hz)
    exact div_pos h hd

theorem incOf_nonneg {d12 : ℚ} (h : 0 ≤ d12) (d : ℚ) : 0 ≤ incOf d12 d := by
  unfold incOf
  split_ifs with hz
  · linarith
  · exact div_nonneg h (abs_nonneg d)

theorem planeMin_sub_mul_sign_nonpos (s d : ℚ) :
    (planeMin s d - s) * (signOf d : ℚ) ≤ 0 := by
  have h1 := stirRound_le s
  have h2 := le_stirRound s
  unfold planeMin signOf
  split_ifs with h <;> push_cast <;> nlinarith

theorem neg_one_le_planeMin_sub_mul_sign (s d : ℚ) :
    -1 ≤ (planeMin s d - s) * (signOf d : ℚ) := by
  have h1 := stirRound_le s
  have h2 := le_stirRound s
  unfold planeMin signOf
  split_ifs with h <;> push_cast <;> nlinarith

theorem le_planeMax_sub_mul_sign (s t : ℚ) :
    |t - s| ≤ (planeMax t (t - s) - s) * (signOf (t - s) : ℚ) := by
  have h1 := stirRound_le t
  have h2 := le_stirRound t
  unfold planeMax signOf
  rcases le_or_lt 0 (t - s) with hd | hd
  · rw [if_pos hd, abs_of_nonneg hd]
    push_cast
    nlinarith
  · rw [if_neg (not_le.mpr hd), abs_of_neg hd]
    push_cast
    nlinarith

theorem planeMax_sub_mul_sign_le (s t : ℚ) :
    (planeMax t (t - s) - s) * (signOf (t - s) : ℚ) ≤ |t - s| + 1 := by
  have h1 := stirRound_le t
  have h2 := le_stirRound t
  unfold planeMax signOf
  rcases le_or_lt 0 (t - s) with hd | hd
  · rw [if_pos hd, abs_of_nonneg hd]
    push_cast
    nlinarith
  · rw [if_neg (not_le.mpr hd), abs_of_neg hd]
    push_cast
    nlinarith

theorem a0Of_nonpos {d12 : ℚ} (h : 0 ≤ d12) (s t : ℚ) : a0Of d12 s t ≤ 0 := by
  unfold a0Of
  split_ifs with hz
  · simpa using incOf_nonneg h (t - s)
  · have hb := planeMin_sub_mul_sign_nonpos s (t - s)
    have hi := incOf_nonneg h (t - s)
    nlinarith

theorem neg_inc_le_a0Of {d12 : ℚ} (h : 0 ≤ d12) (s t : ℚ) :
    -incOf d12 (t - s) ≤ a0Of d12 s t := by
  unfold a0Of
  split_ifs with hz
  · exact le_refl _
  · have hb := neg_one_le_planeMin_sub_mul_sign s (t - s)
    have hi := incOf_nonneg h (t - s)
    nlinarith

theorem aendOf_ge {d12 : ℚ} (h : 0 ≤ d12) (s t : ℚ) :
    9999 / 10000 * d12 ≤ aendOf d12 s t := by
  unfold aendOf
  split_ifs with hz
  · linarith
  · have hu : small_difference < |t - s| := not_le.mp hz
    have hu0 : (0 : ℚ) < |t - s| := lt_trans small_difference_pos hu
    have hinc : incOf d12 (t - s) = d12 / |t - s| := by
      unfold incOf
      rw [if_neg hz]
    have hB := le_planeMax_sub_mul_sign s t
    have hdiv : 0 ≤ d12 / |t - s| := div_nonneg h (le_of_lt hu0)
    have h1 : |t - s| * (d12 / |t - s|) = d12 := by
      field_simp
    have h2 : |t - s| * (d12 / |t - s|) ≤
        (planeMax t (t - s) - s) * (signOf (t - s) : ℚ) * (d12 / |t - s|) :=
      mul_le_mul_of_nonneg_right hB hdiv
    rw [h1] at h2
    rw [hinc]
    nlinarith

theorem aendOf_nonneg {d12 : ℚ} (h : 0 ≤ d12) (s t : ℚ) : 0 ≤ aendOf d12 s t := by
  have := aendOf_ge h s t
  linarith

theorem a1Of_nonneg {d12 : ℚ} (h : 0 ≤ d12) (s t : ℚ) : 0 ≤ a1Of d12 s t := by
  unfold a1Of
  split_ifs with hz
  · exact aendOf_nonneg h s t
  · have := neg_inc_le_a0Of h s t
    linarith

theorem aendOf_of_near {d12 s t : ℚ} (hz : |t - s| ≤ small_difference) :
    aendOf d12 s t = d12 * 1000000 := by
  unfold aendOf
  rw [if_pos hz]

theorem a1Of_of_near {d12 s t : ℚ} (hz : |t - s| ≤ small_difference) :
    a1Of d12 s t = d12 * 1000000 := by
  unfold a1Of
  rw [if_pos hz, aendOf_of_near hz]

theorem aendOf_add_incOf_lt {d12 : ℚ} (h : 0 < d12) {s t : ℚ}
    (hz : ¬ |t - s| ≤ small_difference) :
    aendOf d12 s t + incOf d12 (t - s) < d12 * 1000000 := by
  have hu : small_difference < |t - s| := not_le.mp hz
  have hu0 : (0 : ℚ) < |t - s| := lt_trans small_difference_pos hu
  have hsmall : (1 : ℚ) / 100000 < |t - s| := by
    simpa [small_difference] using hu
  have hinc : incOf d12 (t - s) = d12 / |t - s| := by
    unfold incOf
    rw [if_neg hz]
  have hipos : 0 < d12 / |t - s| := div_pos h hu0
  have hiu : d12 / |t - s| * |t - s| = d12 := div_mul_cancel₀ d12 (ne_of_gt hu0)
  have hB := planeMax_sub_mul_sign_le s t
  have h3 : (planeMax t (t - s) - s) * (signOf (t - s) : ℚ) * (d12 / |t - s|) ≤
      (|t - s| + 1) * (d12 / |t - s|) :=
    mul_le_mul_of_nonneg_right hB (le_of_lt hipos)
  have key : ((|t - s| + 1) * (9999 / 10000) + 1) < 1000000 * |t - s| := by
    linarith
  have key2 : d12 / |t - s| * ((|t - s| + 1) * (9999 / 10000) + 1) <
      d12 / |t - s| * (1000000 * |t - s|) :=
    mul_lt_mul_of_pos_left key hipos
  unfold aendOf
  rw [if_neg hz, hinc]
  nlinarith

theorem aendOf_lt_sentinel {d12 : ℚ} (h : 0 < d12) {s t : ℚ}
    (hz : ¬ |t - s| ≤ small_difference) :
    aendOf d12 s t < d12 * 1000000 := by
  have h1 := aendOf_add_incOf_lt h hz
  have h2 := incOf_pos h (t - s)
  linarith

/-! ## Facts about the loop body and the fuelled loop -/

theorem rtSelect_eq_X_iff (s : RtState) :
    rtSelect s = Axis.X ↔ s.ax < s.ay ∧ s.ax < s.az := by
  unfold rtSelect
  split_ifs <;> simp_all

theorem rtSelect_eq_Y_iff (s : RtState) :
    rtSelect s = Axis.Y ↔ ¬ s.ax < s.ay ∧ s.ay < s.az := by
  unfold rtSelect
  split_ifs <;> simp_all

theorem rtStep_entry_voxel (c : RtCtx) (s : RtState) :
    (rtStep c s).1.voxel = ⟨s.vx, s.vy, s.vz⟩ := by
  cases h : rtSelect s <;> simp [rtStep, h]

theorem rtStep_value_eq (c : RtCtx) (s : RtState) :
    (rtStep c s).1.value = (rtStep c s).2.a - s.a := by
  cases h : rtSelect s <;> simp [rtStep, h]

theorem rtLoop_of_ge (c : RtCtx) (n : ℕ) (s : RtState) (h : ¬ s.a < c.amax) :
    rtLoop c n s = ([], s) := by
  cases n <;> simp [rtLoop, h]

theorem rtLoop_sum (c : RtCtx) :
    ∀ (n : ℕ) (s : RtState),
      sumValues (rtLoop c n s).1 = (rtLoop c n s).2.a - s.a := by
  intro n
  induction n with
  | zero =>
    intro s
    simp [rtLoop, sumValues]
  | succ n ih =>
    intro s
    by_cases h : s.a < c.amax
    · have hv := rtStep_value_eq c s
      have ihs := ih (rtStep c s).2
      simp only [rtLoop, if_pos h]
      simp only [sumValues, List.map_cons, List.sum_cons] at *
      linarith
    · simp [rtLoop_of_ge c _ s h, sumValues]

theorem crossingsLeft_of_gt {amax aval : ℚ} (inc : ℚ) (h : amax < aval) :
    crossingsLeft inc amax aval = 0 := by
  unfold crossingsLeft
  split_ifs with h1
  · rfl
  · rfl

theorem crossingsLeft_lt {inc amax aval : ℚ} (hi : 0 < inc) (hle : aval ≤ amax) :
    crossingsLeft inc amax (aval + inc) < crossingsLeft inc amax aval := by
  unfold crossingsLeft
  rw [if_neg (not_le.mpr hi), if_neg (not_lt.mpr hle), if_neg (not_le.mpr hi)]
  split_ifs with h2
  · omega
  · have hle2 : aval + inc ≤ amax := not_lt.mp h2
    have key : (amax - (aval + inc)) / inc = (amax - aval) / inc - 1 := by
      field_simp
      ring
    rw [key, Int.ceil_sub_one]
    have h1 : (0 : ℤ) < ⌈(amax - aval) / inc⌉ :=
      Int.lt_ceil.mpr (by push_cast; exact div_pos (by linarith) hi)
    omega

theorem rtMeasure_lt (c : RtCtx) (hx : 0 < c.inc_x) (hy : 0 < c.inc_y)
    (hz : 0 < c.inc_z) (s : RtState) (ha : s.a < c.amax) :
    rtMeasure c (rtStep c s).2 < rtMeasure c s := by
  cases h : rtSelect s with
  | X =>
    simp only [rtStep, h, rtMeasure]
    rw [if_pos ha]
    rcases le_or_lt s.ax c.amax with hle | hgt
    · have hc := crossingsLeft_lt hx hle
      have ht : (if s.ax < c.amax then 1 else 0) ≤ 1 := by split_ifs <;> omega
      omega
    · rw [crossingsLeft_of_gt c.inc_x hgt,
        crossingsLeft_of_gt c.inc_x (by linarith : c.amax < s.ax + c.inc_x),
        if_neg (not_lt.mpr (le_of_lt hgt))]
      omega
  | Y =>
    simp only [rtStep, h, rtMeasure]
    rw [if_pos ha]
    rcases le_or_lt s.ay c.amax with hle | hgt
    · have hc := crossingsLeft_lt hy hle
      have ht : (if s.ay < c.amax then 1 else 0) ≤ 1 := by split_ifs <;> omega
      omega
    · rw [crossingsLeft_of_gt c.inc_y hgt,
        crossingsLeft_of_gt c.inc_y (by linarith : c.amax < s.ay + c.inc_y),
        if_neg (not_lt.mpr (le_of_lt hgt))]
      omega
  | Z =>
    simp only [rtStep, h, rtMeasure]
    rw [if_pos ha]
    rcases le_or_lt s.az c.amax with hle | hgt
    · have hc := crossingsLeft_lt hz hle
      have ht : (if s.az < c.amax then 1 else 0) ≤ 1 := by split_ifs <;> omega
      omega
    · rw [crossingsLeft_of_gt c.inc_z hgt,
        crossingsLeft_of_gt c.inc_z (by linarith : c.amax < s.az + c.inc_z),
        if_neg (not_lt.mpr (le_of_lt hgt))]
      omega

theorem rtLoop_final_ge (c : RtCtx) (hx : 0 < c.inc_x) (hy : 0 < c.inc_y)
    (hz : 0 < c.inc_z) :
    ∀ (n : ℕ) (s : RtState), rtMeasure c s ≤ n →
      ¬ (rtLoop c n s).2.a < c.amax := by
  intro n
  induction n with
  | zero =>
    intro s hm
    simp only [rtLoop]
    intro hcon
    simp [rtMeasure, if_pos hcon] at hm
  | succ n ih =>
    intro s hm
    by_cases h : s.a < c.amax
    · simp only [rtLoop, if_pos h]
      apply ih
      have := rtMeasure_lt c hx hy hz s h
      omega
    · rw [rtLoop_of_ge c _ s h]
      exact h

theorem rtLoop_inv (c : RtCtx) (P : RtState → Prop)
    (hstep : ∀ s, s.a < c.amax → P s → P (rtStep c s).2) :
    ∀ (n : ℕ) (s : RtState), P s → P (rtLoop c n s).2 := by
  intro n
  induction n with
  | zero =>
    intro s hP
    simpa [rtLoop] using hP
  | succ n ih =>
    intro s hP
    by_cases h : s.a < c.amax
    · simp only [rtLoop, if_pos h]
      exact ih _ (hstep s h hP)
    · simpa [rtLoop, h] using hP

theorem rtLoop_entries (c : RtCtx) (P : RtState → Prop) (Q : ProjMatrixElem → Prop)
    (hstep : ∀ s, s.a < c.amax → P s → P (rtStep c s).2)
    (hent : ∀ s, s.a < c.amax → P s → Q (rtStep c s).1) :
    ∀ (n : ℕ) (s : RtState), P s → ∀ e ∈ (rtLoop c n s).1, Q e := by
  intro n
  induction n with
  | zero =>
    intro s hP e he
    simp [rtLoop] at he
  | succ n ih =>
    intro s hP e he
    by_cases h : s.a < c.amax
    · simp only [rtLoop, if_pos h, List.mem_cons] at he
      rcases he with rfl | he'
      · exact hent s h hP
      · exact ih _ (hstep s h hP) e he'
    · simp [rtLoop, h] at he

theorem rtLoop_head_voxel (c : RtCtx) :
    ∀ (n : ℕ) (s : RtState) (e : ProjMatrixElem),
      (rtLoop c n s).1.head? = some e → e.voxel = ⟨s.vx, s.vy, s.vz⟩ := by
  intro n s e h
  cases n with
  | zero => simp [rtLoop] at h
  | succ n =>
    by_cases hc : s.a < c.amax
    · simp only [rtLoop, if_pos hc, List.head?_cons, Option.some.injEq] at h
      rw [← h, rtStep_entry_voxel]
    · simp [rtLoop, hc] at h

theorem rtStep_voxel_adj (c : RtCtx) (h1 : c.sign_x = 1 ∨ c.sign_x = -1)
    (h2 : c.sign_y = 1 ∨ c.sign_y = -1) (h3 : c.sign_z = 1 ∨ c.sign_z = -1)
    (s : RtState) :
    voxAdj ⟨s.vx, s.vy, s.vz⟩
      ⟨(rtStep c s).2.vx, (rtStep c s).2.vy, (rtStep c s).2.vz⟩ := by
  cases h : rtSelect s with
  | X =>
    simp only [rtStep, h, voxAdj]
    rcases h1 with hs | hs <;> simp [hs]
  | Y =>
    simp only [rtStep, h, voxAdj]
    rcases h2 with hs | hs <;> simp [hs]
  | Z =>
    simp only [rtStep, h, voxAdj]
    rcases h3 with hs | hs <;> simp [hs]

theorem rtLoop_chain (c : RtCtx) (h1 : c.sign_x = 1 ∨ c.sign_x = -1)
    (h2 : c.sign_y = 1 ∨ c.sign_y = -1) (h3 : c.sign_z = 1 ∨ c.sign_z = -1) :
    ∀ (n : ℕ) (s : RtState),
      List.Chain' voxAdj ((rtLoop c n s).1.map ProjMatrixElem.voxel) := by
  intro n
  induction n with
  | zero =>
    intro s
    simp [rtLoop]
  | succ n ih =>
    intro s
    by_cases h : s.a < c.amax
    · simp only [rtLoop, if_pos h, List.map_cons]
      rw [List.chain'_cons']
      refine ⟨?_, ih _⟩
      intro b hb
      rw [List.head?_map] at hb
      rcases ho : (rtLoop c n (rtStep c s).2).1.head? with _ | e
      · rw [ho] at hb
        simp at hb
      · rw [ho] at hb
        simp only [Option.map_some', Option.mem_def, Option.some.injEq] at hb
        subst hb
        have he := rtLoop_head_voxel c n (rtStep c s).2 e ho
        rw [he, rtStep_entry_voxel]
        exact rtStep_voxel_adj c h1 h2 h3 s
    · simp [rtLoop, h]

theorem rtSelect_eq_Z_iff (s : RtState) :
    rtSelect s = Axis.Z ↔
      (s.ax < s.ay ∧ ¬ s.ax < s.az) ∨ (¬ s.ax < s.ay ∧ ¬ s.ay < s.az) := by
  unfold rtSelect
  split_ifs <;> simp_all

/-! ## Projections of the pre-loop computation -/

theorem rayTraceCtx_inc_x (p q : Coord3) (d12 : ℚ) :
    (rayTraceCtx p q d12).inc_x = incOf d12 (q.x - p.x) := rfl

theorem rayTraceCtx_inc_y (p q : Coord3) (d12 : ℚ) :
    (rayTraceCtx p q d12).inc_y = incOf d12 (q.y - p.y) := rfl

theorem rayTraceCtx_inc_z (p q : Coord3) (d12 : ℚ) :
    (rayTraceCtx p q d12).inc_z = incOf d12 (q.z - p.z) := rfl

theorem rayTraceCtx_amax (p q : Coord3) (d12 : ℚ) :
    (rayTraceCtx p q d12).amax =
      min (aendOf d12 p.x q.x) (min (aendOf d12 p.y q.y) (aendOf d12 p.z q.z)) := rfl

theorem rayTraceCtx_sign_x (p q : Coord3) (d12 : ℚ) :
    (rayTraceCtx p q d12).sign_x = signOf (q.x - p.x) := rfl

theorem rayTraceCtx_sign_y (p q : Coord3) (d12 : ℚ) :
    (rayTraceCtx p q d12).sign_y = signOf (q.y - p.y) := rfl

theorem rayTraceCtx_sign_z (p q : Coord3) (d12 : ℚ) :
    (rayTraceCtx p q d12).sign_z = signOf (q.z - p.z) := rfl

theorem rayTraceState0_a (p q : Coord3) (d12 : ℚ) :
    (rayTraceState0 p q d12).a =
      max (a0Of d12 p.x q.x) (max (a0Of d12 p.y q.y) (a0Of d12 p.z q.z)) := rfl

theorem rayTraceState0_ax (p q : Coord3) (d12 : ℚ) :
    (rayTraceState0 p q d12).ax = a1Of d12 p.x q.x := rfl

theorem rayTraceState0_ay (p q : Coord3) (d12 : ℚ) :
    (rayTraceState0 p q d12).ay = a1Of d12 p.y q.y := rfl

theorem rayTraceState0_az (p q : Coord3) (d12 : ℚ) :
    (rayTraceState0 p q d12).az = a1Of d12 p.z q.z := rfl

theorem rayTraceState0_vx (p q : Coord3) (d12 : ℚ) :
    (rayTraceState0 p q d12).vx = stirRound p.x := by
  show stirRound (planeMin p.x (q.x - p.x) + (signOf (q.x - p.x) : ℚ) * (1 / 2)) =
    stirRound p.x
  rw [show planeMin p.x (q.x - p.x) + (signOf (q.x - p.x) : ℚ) * (1 / 2) =
    ((stirRound p.x : ℤ) : ℚ) by unfold planeMin; ring]
  exact stirRound_intCast _

theorem rayTraceState0_vy (p q : Coord3) (d12 : ℚ) :
    (rayTraceState0 p q d12).vy = stirRound p.y := by
  show stirRound (planeMin p.y (q.y - p.y) + (signOf (q.y - p.y) : ℚ) * (1 / 2)) =
    stirRound p.y
  rw [show planeMin p.y (q.y - p.y) + (signOf (q.y - p.y) : ℚ) * (1 / 2) =
    ((stirRound p.y : ℤ) : ℚ) by unfold planeMin; ring]
  exact stirRound_intCast _

theorem rayTraceState0_vz (p q : Coord3) (d12 : ℚ) :
    (rayTraceState0 p q d12).vz = stirRound p.z := by
  show stirRound (planeMin p.z (q.z - p.z) + (signOf (q.z - p.z) : ℚ) * (1 / 2)) =
    stirRound p.z
  rw [show planeMin p.z (q.z - p.z) + (signOf (q.z - p.z) : ℚ) * (1 / 2) =
    ((stirRound p.z : ℤ) : ℚ) by unfold planeMin; ring]
  exact stirRound_intCast _

theorem rayTraceCtx_amax_ge {d12 : ℚ} (h : 0 ≤ d12) (p q : Coord3) :
    9999 / 10000 * d12 ≤ (rayTraceCtx p q d12).amax := by
  rw [rayTraceCtx_amax]
  exact le_min (aendOf_ge h _ _) (le_min (aendOf_ge h _ _) (aendOf_ge h _ _))

theorem rayTraceCtx_amax_nonneg {d12 : ℚ} (h : 0 ≤ d12) (p q : Coord3) :
    0 ≤ (rayTraceCtx p q d12).amax := by
  have := rayTraceCtx_amax_ge h p q
  linarith

theorem rayTraceState0_a_nonpos {d12 : ℚ} (h : 0 ≤ d12) (p q : Coord3) :
    (rayTraceState0 p q d12).a ≤ 0 := by
  rw [rayTraceState0_a]
  exact max_le (a0Of_nonpos h _ _) (max_le (a0Of_nonpos h _ _) (a0Of_nonpos h _ _))

/-! ## The monotonicity invariant: `a` is below every pending crossing -/

theorem rtStep_mono_state (c : RtCtx) (hx : 0 ≤ c.inc_x) (hy : 0 ≤ c.inc_y)
    (hz : 0 ≤ c.inc_z) (s : RtState) :
    (rtStep c s).2.a ≤ (rtStep c s).2.ax ∧ (rtStep c s).2.a ≤ (rtStep c s).2.ay ∧
      (rtStep c s).2.a ≤ (rtStep c s).2.az := by
  cases h : rtSelect s with
  | X =>
    obtain ⟨hxy, hxz⟩ := (rtSelect_eq_X_iff s).mp h
    simp only [rtStep, h]
    exact ⟨by linarith, le_of_lt hxy, le_of_lt hxz⟩
  | Y =>
    obtain ⟨hxy, hyz⟩ := (rtSelect_eq_Y_iff s).mp h
    simp only [rtStep, h]
    exact ⟨not_lt.mp hxy, by linarith, le_of_lt hyz⟩
  | Z =>
    rcases (rtSelect_eq_Z_iff s).mp h with ⟨hxy, hxz⟩ | ⟨hxy, hyz⟩
    · simp only [rtStep, h]
      exact ⟨not_lt.mp hxz, le_of_lt (lt_of_le_of_lt (not_lt.mp hxz) hxy), by linarith⟩
    · simp only [rtStep, h]
      exact ⟨le_trans (not_lt.mp hyz) (not_lt.mp hxy), not_lt.mp hyz, by linarith⟩

theorem rtStep_value_nonneg (c : RtCtx) (s : RtState)
    (hP : s.a ≤ s.ax ∧ s.a ≤ s.ay ∧ s.a ≤ s.az) :
    0 ≤ (rtStep c s).1.value := by
  obtain ⟨h1, h2, h3⟩ := hP
  cases h : rtSelect s <;> simp only [rtStep, h] <;> simp <;> linarith

theorem rayTraceState0_mono {d12 : ℚ} (h : 0 ≤ d12) (p q : Coord3) :
    (rayTraceState0 p q d12).a ≤ (rayTraceState0 p q d12).ax ∧
      (rayTraceState0 p q d12).a ≤ (rayTraceState0 p q d12).ay ∧
      (rayTraceState0 p q d12).a ≤ (rayTraceState0 p q d12).az := by
  have ha := rayTraceState0_a_nonpos h p q
  rw [rayTraceState0_ax, rayTraceState0_ay, rayTraceState0_az]
  exact ⟨le_trans ha (a1Of_nonneg h _ _), le_trans ha (a1Of_nonneg h _ _),
    le_trans ha (a1Of_nonneg h _ _)⟩

/-! ## Scale invariance of the traversal -/

theorem rtSelect_scale {k : ℚ} (hk : 0 < k) (s : RtState) :
    rtSelect (scaleState k s) = rtSelect s := by
  unfold rtSelect scaleState
  simp only [mul_lt_mul_left hk]

theorem rtStep_scale {k : ℚ} (hk : 0 < k) (c : RtCtx) (s : RtState) :
    rtStep (scaleCtx k c) (scaleState k s) =
      (scaleElem k (rtStep c s).1, scaleState k (rtStep c s).2) := by
  have hsel := rtSelect_scale hk s
  cases h : rtSelect s <;>
    · rw [h] at hsel
      simp only [rtStep, hsel, h]
      simp only [scaleElem, scaleState, scaleCtx, Prod.mk.injEq,
        ProjMatrixElem.mk.injEq, RtState.mk.injEq]
      repeat' constructor
      all_goals first | rfl | ring

theorem rtLoop_scale {k : ℚ} (hk : 0 < k) (c : RtCtx) :
    ∀ (n : ℕ) (s : RtState),
      rtLoop (scaleCtx k c) n (scaleState k s) =
        ((rtLoop c n s).1.map (scaleElem k), scaleState k (rtLoop c n s).2) := by
  intro n
  induction n with
  | zero =>
    intro s
    simp [rtLoop]
  | succ n ih =>
    intro s
    have hcond : ((scaleState k s).a < (scaleCtx k c).amax) ↔ (s.a < c.amax) := by
      unfold scaleState scaleCtx
      exact mul_lt_mul_left hk
    by_cases h : s.a < c.amax
    · simp only [rtLoop, if_pos h, if_pos (hcond.mpr h)]
      rw [rtStep_scale hk]
      simp only [List.map_cons]
      rw [ih (rtStep c s).2]
    · rw [rtLoop_of_ge _ _ _ h, rtLoop_of_ge _ _ _ (fun hc => h (hcond.mp hc))]
      simp

theorem mul_min_eq {k a b : ℚ} (hk : 0 ≤ k) : k * min a b = min (k * a) (k * b) := by
  rcases le_total a b with h | h
  · rw [min_eq_left h, min_eq_left (mul_le_mul_of_nonneg_left h hk)]
  · rw [min_eq_right h, min_eq_right (mul_le_mul_of_nonneg_left h hk)]

theorem mul_max_eq {k a b : ℚ} (hk : 0 ≤ k) : k * max a b = max (k * a) (k * b) := by
  rcases le_total a b with h | h
  · rw [max_eq_right h, max_eq_right (mul_le_mul_of_nonneg_left h hk)]
  · rw [max_eq_left h, max_eq_left (mul_le_mul_of_nonneg_left h hk)]

theorem crossingsLeft_scale {k : ℚ} (hk : 0 < k) (inc amax aval : ℚ) :
    crossingsLeft (k * inc) (k * amax) (k * aval) = crossingsLeft inc amax aval := by
  have h1 : (k * inc ≤ 0) ↔ (inc ≤ 0) := by
    constructor
    · intro h
      by_contra h2
      have := mul_pos hk (lt_of_not_le h2)
      linarith
    · intro h
      have h3 := mul_le_mul_of_nonneg_left h (le_of_lt hk)
      simpa using h3
  have h2 : (k * amax < k * aval) ↔ (amax < aval) := mul_lt_mul_left hk
  have h3 : (k * amax - k * aval) / (k * inc) = (amax - aval) / inc := by
    rw [← mul_sub, mul_div_mul_left _ _ (ne_of_gt hk)]
  unfold crossingsLeft
  simp only [h1, h2, h3]

theorem rtMeasure_scale {k : ℚ} (hk : 0 < k) (c : RtCtx) (s : RtState) :
    rtMeasure (scaleCtx k c) (scaleState k s) = rtMeasure c s := by
  simp only [rtMeasure, scaleCtx, scaleState]
  rw [crossingsLeft_scale hk, crossingsLeft_scale hk, crossingsLeft_scale hk]
  congr 1
  simp only [mul_lt_mul_left hk]

theorem incOf_scale {k : ℚ} (d12 d : ℚ) : incOf (k * d12) d = k * incOf d12 d := by
  unfold incOf
  split_ifs with h
  · ring
  · exact mul_div_assoc k d12 |d|

theorem aendOf_scale {k : ℚ} (d12 s t : ℚ) :
    aendOf (k * d12) s t = k * aendOf d12 s t := by
  unfold aendOf
  split_ifs with h
  · ring
  · rw [incOf_scale]
    ring

theorem a0Of_scale {k : ℚ} (d12 s t : ℚ) : a0Of (k * d12) s t = k * a0Of d12 s t := by
  unfold a0Of
  split_ifs with h
  · rw [incOf_scale]
    ring
  · rw [incOf_scale]
    ring

theorem a1Of_scale {k : ℚ} (d12 s t : ℚ) : a1Of (k * d12) s t = k * a1Of d12 s t := by
  unfold a1Of
  split_ifs with h
  · exact aendOf_scale d12 s t
  · rw [incOf_scale, a0Of_scale]
    ring

theorem rayTraceCtx_scale {k : ℚ} (hk : 0 < k) (p q : Coord3) (d12 : ℚ) :
    rayTraceCtx p q (k * d12) = scaleCtx k (rayTraceCtx p q d12) := by
  unfold rayTraceCtx scaleCtx
  simp only [RtCtx.mk.injEq, incOf_scale, aendOf_scale, mul_min_eq (le_of_lt hk),
    and_true, true_and, and_self]

theorem rayTraceState0_scale {k : ℚ} (hk : 0 < k) (p q : Coord3) (d12 : ℚ) :
    rayTraceState0 p q (k * d12) = scaleState k (rayTraceState0 p q d12) := by
  unfold rayTraceState0 scaleState
  simp only [RtState.mk.injEq, a0Of_scale, a1Of_scale, mul_max_eq (le_of_lt hk),
    and_true, true_and, and_self]

theorem rayTrace_scale {k : ℚ} (hk : 0 < k) (p q : Coord3) (d12 : ℚ) :
    RayTraceVoxelsOnCartesianGrid p q (k * d12) =
      (RayTraceVoxelsOnCartesianGrid p q d12).map (scaleElem k) := by
  unfold RayTraceVoxelsOnCartesianGrid rayTraceRun
  rw [rayTraceCtx_scale hk, rayTraceState0_scale hk, rtMeasure_scale hk,
    rtLoop_scale hk]

/-! ## The axis-parallel invariant -/

theorem amax_le_aend_x (p q : Coord3) (d12 : ℚ) :
    (rayTraceCtx p q d12).amax ≤ aendOf d12 p.x q.x := by
  rw [rayTraceCtx_amax]
  exact min_le_left _ _

theorem amax_le_aend_y (p q : Coord3) (d12 : ℚ) :
    (rayTraceCtx p q d12).amax ≤ aendOf d12 p.y q.y := by
  rw [rayTraceCtx_amax]
  exact le_trans (min_le_right _ _) (min_le_left _ _)

theorem amax_le_aend_z (p q : Coord3) (d12 : ℚ) :
    (rayTraceCtx p q d12).amax ≤ aendOf d12 p.z q.z := by
  rw [rayTraceCtx_amax]
  exact le_trans (min_le_right _ _) (min_le_right _ _)

theorem bound_x (p q : Coord3) {d12 : ℚ} (hd : 0 < d12)
    (hz : ¬ |q.x - p.x| ≤ small_difference) :
    (rayTraceCtx p q d12).amax + (rayTraceCtx p q d12).inc_x < d12 * 1000000 := by
  have h1 := amax_le_aend_x p q d12
  have h2 := aendOf_add_incOf_lt hd hz
  rw [rayTraceCtx_inc_x]
  linarith

theorem bound_y (p q : Coord3) {d12 : ℚ} (hd : 0 < d12)
    (hz : ¬ |q.y - p.y| ≤ small_difference) :
    (rayTraceCtx p q d12).amax + (rayTraceCtx p q d12).inc_y < d12 * 1000000 := by
  have h1 := amax_le_aend_y p q d12
  have h2 := aendOf_add_incOf_lt hd hz
  rw [rayTraceCtx_inc_y]
  linarith

theorem bound_z (p q : Coord3) {d12 : ℚ} (hd : 0 < d12)
    (hz : ¬ |q.z - p.z| ≤ small_difference) :
    (rayTraceCtx p q d12).amax + (rayTraceCtx p q d12).inc_z < d12 * 1000000 := by
  have h1 := amax_le_aend_z p q d12
  have h2 := aendOf_add_incOf_lt hd hz
  rw [rayTraceCtx_inc_z]
  linarith

theorem c8Inv_init (p q : Coord3) {d12 : ℚ} (hd : 0 < d12) :
    c8Inv p q d12 (rayTraceState0 p q d12) := by
  have hmx := rayTraceCtx_amax_nonneg (le_of_lt hd) p q
  refine ⟨?_, ?_, ?_, ?_, ?_, ?_⟩
  · intro hz
    exact ⟨by rw [rayTraceState0_ax, a1Of_of_near hz], rayTraceState0_vx p q d12⟩
  · intro hz
    exact ⟨by rw [rayTraceState0_ay, a1Of_of_near hz], rayTraceState0_vy p q d12⟩
  · intro hz
    exact Or.inl ⟨by rw [rayTraceState0_az, a1Of_of_near hz], rayTraceState0_vz p q d12⟩
  · intro hz _
    rw [rayTraceState0_ax, rayTraceCtx_inc_x]
    have h1 : a1Of d12 p.x q.x = a0Of d12 p.x q.x + incOf d12 (q.x - p.x) := by
      unfold a1Of
      rw [if_neg hz]
    have h2 := a0Of_nonpos (le_of_lt hd) p.x q.x
    linarith
  · intro hz _
    rw [rayTraceState0_ay, rayTraceCtx_inc_y]
    have h1 : a1Of d12 p.y q.y = a0Of d12 p.y q.y + incOf d12 (q.y - p.y) := by
      unfold a1Of
      rw [if_neg hz]
    have h2 := a0Of_nonpos (le_of_lt hd) p.y q.y
    linarith
  · intro hz _
    rw [rayTraceState0_az, rayTraceCtx_inc_z]
    have h1 : a1Of d12 p.z q.z = a0Of d12 p.z q.z + incOf d12 (q.z - p.z) := by
      unfold a1Of
      rw [if_neg hz]
    have h2 := a0Of_nonpos (le_of_lt hd) p.z q.z
    linarith

theorem c8_select_not_X (p q : Coord3) {d12 : ℚ} (hd : 0 < d12) (s : RtState)
    (ha : s.a < (rayTraceCtx p q d12).amax) (h : c8Inv p q d12 s)
    (hzx : |q.x - p.x| ≤ small_difference) : rtSelect s ≠ Axis.X := by
  obtain ⟨F1x, F1y, _, _, F2y, _⟩ := h
  intro hsel
  obtain ⟨hxy, _⟩ := (rtSelect_eq_X_iff s).mp hsel
  have hax : s.ax = d12 * 1000000 := (F1x hzx).1
  by_cases hzy : |q.y - p.y| ≤ small_difference
  · have hay : s.ay = d12 * 1000000 := (F1y hzy).1
    rw [hax, hay] at hxy
    exact lt_irrefl _ hxy
  · have hby : s.ay < d12 * 1000000 :=
      lt_of_le_of_lt (F2y hzy ha) (bound_y p q hd hzy)
    rw [hax] at hxy
    linarith

theorem c8_select_not_Y (p q : Coord3) {d12 : ℚ} (hd : 0 < d12) (s : RtState)
    (ha : s.a < (rayTraceCtx p q d12).amax) (h : c8Inv p q d12 s)
    (hzy : |q.y - p.y| ≤ small_difference) : rtSelect s ≠ Axis.Y := by
  obtain ⟨_, F1y, F1z, _, _, F2z⟩ := h
  intro hsel
  obtain ⟨_, hyz⟩ := (rtSelect_eq_Y_iff s).mp hsel
  have hay : s.ay = d12 * 1000000 := (F1y hzy).1
  by_cases hzz : |q.z - p.z| ≤ small_difference
  · rcases F1z hzz with ⟨haz, _⟩ | ⟨hge, _⟩
    · rw [hay, haz] at hyz
      exact lt_irrefl _ hyz
    · linarith
  · have hbz : s.az < d12 * 1000000 :=
      lt_of_le_of_lt (F2z hzz ha) (bound_z p q hd hzz)
    rw [hay] at hyz
    linarith

theorem c8_select_Z_near (p q : Coord3) {d12 : ℚ} (hd : 0 < d12) (s : RtState)
    (ha : s.a < (rayTraceCtx p q d12).amax) (h : c8Inv p q d12 s)
    (hzz : |q.z - p.z| ≤ small_difference) (hsel : rtSelect s = Axis.Z) :
    |q.x - p.x| ≤ small_difference ∧ |q.y - p.y| ≤ small_difference := by
  obtain ⟨F1x, F1y, F1z, F2x, F2y, _⟩ := h
  rcases F1z hzz with ⟨haz, _⟩ | ⟨hge, _⟩
  · rcases (rtSelect_eq_Z_iff s).mp hsel with ⟨hxy, hxz⟩ | ⟨hxy, hyz⟩
    · have hzx : |q.x - p.x| ≤ small_difference := by
        by_contra hzx
        have hbx : s.ax < d12 * 1000000 :=
          lt_of_le_of_lt (F2x hzx ha) (bound_x p q hd hzx)
        have h2 : s.az ≤ s.ax := not_lt.mp hxz
        rw [haz] at h2
        linarith
      have hax := (F1x hzx).1
      have hzy : |q.y - p.y| ≤ small_difference := by
        by_contra hzy
        have hby : s.ay < d12 * 1000000 :=
          lt_of_le_of_lt (F2y hzy ha) (bound_y p q hd hzy)
        rw [hax] at hxy
        linarith
      exact ⟨hzx, hzy⟩
    · have hzy : |q.y - p.y| ≤ small_difference := by
        by_contra hzy
        have hby : s.ay < d12 * 1000000 :=
          lt_of_le_of_lt (F2y hzy ha) (bound_y p q hd hzy)
        have h2 : s.az ≤ s.ay := not_lt.mp hyz
        rw [haz] at h2
        linarith
      have hay := (F1y hzy).1
      have hzx : |q.x - p.x| ≤ small_difference := by
        by_contra hzx
        have hbx : s.ax < d12 * 1000000 :=
          lt_of_le_of_lt (F2x hzx ha) (bound_x p q hd hzx)
        have h2 : s.ay ≤ s.ax := not_lt.mp hxy
        rw [hay] at h2
        linarith
      exact ⟨hzx, hzy⟩
  · linarith

theorem c8Inv_step (p q : Coord3) {d12 : ℚ} (hd : 0 < d12) (s : RtState)
    (ha : s.a < (rayTraceCtx p q d12).amax) (h : c8Inv p q d12 s) :
    c8Inv p q d12 (rtStep (rayTraceCtx p q d12) s).2 := by
  have hX := c8_select_not_X p q hd s ha h
  have hY := c8_select_not_Y p q hd s ha h
  have hZ := c8_select_Z_near p q hd s ha h
  obtain ⟨F1x, F1y, F1z, F2x, F2y, F2z⟩ := h
  cases hsel : rtSelect s with
  | X =>
    have hnzx : ¬ |q.x - p.x| ≤ small_difference := fun hzx => hX hzx hsel
    simp only [rtStep, hsel, c8Inv]
    refine ⟨fun hzx => absurd hzx hnzx, F1y, ?_, ?_, fun hzy hlt => F2y hzy ha,
      fun hzz hlt => F2z hzz ha⟩
    · intro hzz
      rcases F1z hzz with hl | hr
      · exact Or.inl hl
      · exact absurd ha (not_lt.mpr hr.1)
    · intro hzx hlt
      linarith
  | Y =>
    have hnzy : ¬ |q.y - p.y| ≤ small_difference := fun hzy => hY hzy hsel
    simp only [rtStep, hsel, c8Inv]
    refine ⟨F1x, fun hzy => absurd hzy hnzy, ?_, fun hzx hlt => F2x hzx ha, ?_,
      fun hzz hlt => F2z hzz ha⟩
    · intro hzz
      rcases F1z hzz with hl | hr
      · exact Or.inl hl
      · exact absurd ha (not_lt.mpr hr.1)
    · intro hzy hlt
      linarith
  | Z =>
    by_cases hzz : |q.z - p.z| ≤ small_difference
    · obtain ⟨hzx, hzy⟩ := hZ hzz hsel
      have haz : s.az = d12 * 1000000 := by
        rcases F1z hzz with hl | hr
        · exact hl.1
        · exact absurd ha (not_lt.mpr hr.1)
      simp only [rtStep, hsel, c8Inv]
      refine ⟨F1x, F1y, ?_, fun hnzx => absurd hzx hnzx, fun hnzy => absurd hzy hnzy,
        fun hnzz => absurd hzz hnzz⟩
      intro _
      refine Or.inr ⟨?_, hzx, hzy⟩
      rw [haz, ← aendOf_of_near hzz]
      exact amax_le_aend_z p q d12
    · simp only [rtStep, hsel, c8Inv]
      refine ⟨F1x, F1y, fun hzz2 => absurd hzz2 hzz, fun hzx hlt => F2x hzx ha,
        fun hzy hlt => F2y hzy ha, ?_⟩
      intro _ hlt
      linarith

theorem c8Inv_entry (p q : Coord3) {d12 : ℚ} (s : RtState)
    (ha : s.a < (rayTraceCtx p q d12).amax) (h : c8Inv p q d12 s) :
    (|q.x - p.x| ≤ small_difference →
      (rtStep (rayTraceCtx p q d12) s).1.voxel.x = stirRound p.x) ∧
    (|q.y - p.y| ≤ small_difference →
      (rtStep (rayTraceCtx p q d12) s).1.voxel.y = stirRound p.y) ∧
    (|q.z - p.z| ≤ small_difference →
      (rtStep (rayTraceCtx p q d12) s).1.voxel.z = stirRound p.z) := by
  obtain ⟨F1x, F1y, F1z, _, _, _⟩ := h
  rw [rtStep_entry_voxel]
  refine ⟨fun hzx => (F1x hzx).2, fun hzy => (F1y hzy).2, ?_⟩
  intro hzz
  rcases F1z hzz with hl | hr
  · exact hl.2
  · exact absurd ha (not_lt.mpr hr.1)

/-! ## The degenerate direction (`d12 ≤ 0`) and the run-level assembly -/

theorem incOf_nonpos {d12 : ℚ} (hd : d12 ≤ 0) (d : ℚ) : incOf d12 d ≤ 0 := by
  unfold incOf
  split_ifs with h
  · nlinarith
  · exact div_nonpos_iff.mpr (Or.inr ⟨hd, abs_nonneg d⟩)

theorem a0Of_nonneg_of_nonpos {d12 : ℚ} (hd : d12 ≤ 0) (s t : ℚ) :
    0 ≤ a0Of d12 s t := by
  unfold a0Of
  split_ifs with hz
  · simpa using incOf_nonpos hd (t - s)
  · have hb := planeMin_sub_mul_sign_nonpos s (t - s)
    have hi := incOf_nonpos hd (t - s)
    nlinarith

theorem aendOf_nonpos_of_nonpos {d12 : ℚ} (hd : d12 ≤ 0) (s t : ℚ) :
    aendOf d12 s t ≤ 0 := by
  unfold aendOf
  split_ifs with hz
  · nlinarith
  · have hB := le_planeMax_sub_mul_sign s t
    have hB0 : 0 ≤ (planeMax t (t - s) - s) * (signOf (t - s) : ℚ) :=
      le_trans (abs_nonneg _) hB
    have hinc := incOf_nonpos hd (t - s)
    nlinarith

theorem run_empty_of_nonpos {d12 : ℚ} (hd : d12 ≤ 0) (p q : Coord3) :
    rayTraceRun p q d12 = ([], rayTraceState0 p q d12) := by
  unfold rayTraceRun
  apply rtLoop_of_ge
  rw [not_lt, rayTraceCtx_amax, rayTraceState0_a]
  have h1 : aendOf d12 p.x q.x ≤ 0 := aendOf_nonpos_of_nonpos hd _ _
  have h2 : 0 ≤ a0Of d12 p.x q.x := a0Of_nonneg_of_nonpos hd _ _
  have h3 := min_le_left (aendOf d12 p.x q.x)
    (min (aendOf d12 p.y q.y) (aendOf d12 p.z q.z))
  have h4 := le_max_left (a0Of d12 p.x q.x)
    (max (a0Of d12 p.y q.y) (a0Of d12 p.z q.z))
  linarith

theorem d12_eq_zero_of_degenerate (start_point voxel_size : Coord3) (nc d12 : ℚ)
    (h : IsD12 start_point start_point voxel_size nc d12) : d12 = 0 := by
  obtain ⟨r, hr, hsq, hd⟩ := h
  have hz : normSq (cmul (csub start_point start_point) voxel_size) = 0 := by
    simp [csub, cmul, normSq]
  rw [hz] at hsq
  have hr0 : r = 0 := by
    have h2 : r ^ 2 = 0 := hsq
    exact pow_eq_zero_iff two_ne_zero |>.mp h2
  rw [hd, hr0, zero_mul]

theorem c8_main (p q : Coord3) (d12 : ℚ) :
    (∀ e ∈ RayTraceVoxelsOnCartesianGrid p q d12,
      (|q.x - p.x| ≤ small_difference → e.voxel.x = stirRound p.x) ∧
      (|q.y - p.y| ≤ small_difference → e.voxel.y = stirRound p.y) ∧
      (|q.z - p.z| ≤ small_difference → e.voxel.z = stirRound p.z)) ∧
    (|q.x - p.x| ≤ small_difference →
      (rayTraceRun p q d12).2.vx = stirRound p.x) ∧
    (|q.y - p.y| ≤ small_difference →
      (rayTraceRun p q d12).2.vy = stirRound p.y) ∧
    (|q.z - p.z| ≤ small_difference →
      ¬ (|q.x - p.x| ≤ small_difference ∧ |q.y - p.y| ≤ small_difference) →
      (rayTraceRun p q d12).2.vz = stirRound p.z) := by
  rcases le_or_lt d12 0 with hd | hd
  · rw [RayTraceVoxelsOnCartesianGrid, run_empty_of_nonpos hd]
    refine ⟨?_, ?_, ?_, ?_⟩
    · intro e he
      simp at he
    · intro _
      exact rayTraceState0_vx p q d12
    · intro _
      exact rayTraceState0_vy p q d12
    · intro _ _
      exact rayTraceState0_vz p q d12
  · have hent := rtLoop_entries (rayTraceCtx p q d12) (c8Inv p q d12)
      (fun e =>
        (|q.x - p.x| ≤ small_difference → e.voxel.x = stirRound p.x) ∧
        (|q.y - p.y| ≤ small_difference → e.voxel.y = stirRound p.y) ∧
        (|q.z - p.z| ≤ small_difference → e.voxel.z = stirRound p.z))
      (fun s ha hP => c8Inv_step p q hd s ha hP)
      (fun s ha hP => c8Inv_entry p q s ha hP)
      (rtMeasure (rayTraceCtx p q d12) (rayTraceState0 p q d12))
      (rayTraceState0 p q d12) (c8Inv_init p q hd)
    have hfin := rtLoop_inv (rayTraceCtx p q d12) (c8Inv p q d12)
      (fun s ha hP => c8Inv_step p q hd s ha hP)
      (rtMeasure (rayTraceCtx p q d12) (rayTraceState0 p q d12))
      (rayTraceState0 p q d12) (c8Inv_init p q hd)
    obtain ⟨G1x, G1y, G1z, _, _, _⟩ := hfin
    refine ⟨hent, ?_, ?_, ?_⟩
    · intro hzx
      exact (G1x hzx).2
    · intro hzy
      exact (G1y hzy).2
    · intro hzz hnot
      rcases G1z hzz with hl | hr
      · exact hl.2
      · exact absurd ⟨hr.2.1, hr.2.2⟩ hnot

/-! ## The long axis-parallel run from `(0,0,0)` to `(9999.7,0,0)` -/

theorem c4_ctx :
    rayTraceCtx ⟨0, 0, 0⟩ ⟨99997 / 10, 0, 0⟩ (99997 / 10) =
      ⟨1, 9999700000, 9999700000, 199989999 / 20000, 1, 1, 1⟩ := by
  decide

theorem c4_state0 :
    rayTraceState0 ⟨0, 0, 0⟩ ⟨99997 / 10, 0, 0⟩ (99997 / 10) = stateAt 0 := by
  decide

theorem c4_fuel :
    rtMeasure (⟨1, 9999700000, 9999700000, 199989999 / 20000, 1, 1, 1⟩ : RtCtx)
      (stateAt 0) = 10001 := by
  decide

theorem c4_run :
    ∀ (k m n : ℕ), m + k = 10000 → k ≤ n →
      (rtLoop (⟨1, 9999700000, 9999700000, 199989999 / 20000, 1, 1, 1⟩ : RtCtx) n
        (stateAt m)).1 = segList m k := by
  intro k
  induction k with
  | zero =>
    intro m n hm _
    have hm' : m = 10000 := by omega
    subst hm'
    rw [rtLoop_of_ge]
    · rfl
    · show ¬ (((10000 : ℕ) : ℚ) - 1 / 2 < 199989999 / 20000)
      norm_num
  | succ k ih =>
    intro m n hm hn
    have hmle : m ≤ 9999 := by omega
    have hmq : ((m : ℕ) : ℚ) ≤ 9999 := by exact_mod_cast hmle
    rcases n with _ | n
    · omega
    have hcond : (stateAt m).a <
        (⟨1, 9999700000, 9999700000, 199989999 / 20000, 1, 1, 1⟩ : RtCtx).amax := by
      show ((m : ℕ) : ℚ) - 1 / 2 < 199989999 / 20000
      linarith
    have hsel : rtSelect (stateAt m) = Axis.X := by
      rw [rtSelect_eq_X_iff]
      constructor
      · show ((m : ℕ) : ℚ) + 1 / 2 < 9999700000
        linarith
      · show ((m : ℕ) : ℚ) + 1 / 2 < 9999700000
        linarith
    have hstep : rtStep (⟨1, 9999700000, 9999700000, 199989999 / 20000, 1, 1, 1⟩ : RtCtx)
        (stateAt m) = (⟨⟨(m : ℤ), 0, 0⟩, 1⟩, stateAt (m + 1)) := by
      simp only [rtStep, hsel]
      simp only [stateAt, Prod.mk.injEq, ProjMatrixElem.mk.injEq,
        RtState.mk.injEq, Vox.mk.injEq]
      repeat' constructor
      all_goals first | rfl | (push_cast; ring)
    show (rtLoop _ (n + 1) (stateAt m)).1 = segList m (k + 1)
    simp only [rtLoop, if_pos hcond]
    rw [hstep]
    show (⟨⟨(m : ℤ), 0, 0⟩, 1⟩ : ProjMatrixElem) ::
        (rtLoop _ n (stateAt (m + 1))).1 = segList m (k + 1)
    rw [ih (m + 1) n (by omega) (by omega)]
    rfl

theorem segList_getLast :
    ∀ (k m : ℕ), (segList m (k + 1)).getLast? = some ⟨⟨(m : ℤ) + k, 0, 0⟩, 1⟩ := by
  intro k
  induction k with
  | zero =>
    intro m
    show some (⟨⟨(m : ℤ), 0, 0⟩, 1⟩ : ProjMatrixElem) = _
    simp
  | succ k ih =>
    intro m
    have hcons : segList (m + 1) (k + 1) =
        ⟨⟨((m + 1 : ℕ) : ℤ), 0, 0⟩, 1⟩ :: segList (m + 1 + 1) k := rfl
    rw [show segList m (k + 1 + 1) =
        (⟨⟨(m : ℤ), 0, 0⟩, 1⟩ : ProjMatrixElem) :: segList (m + 1) (k + 1) from rfl,
      hcons, List.getLast?_cons_cons, ← hcons, ih (m + 1)]
    simp only [Option.some.injEq, ProjMatrixElem.mk.injEq, Vox.mk.injEq]
    repeat' constructor
    all_goals first | rfl | (push_cast; ring)

/-! ## The claims -/

/-- C1 (amended).  Length conservation as the code actually satisfies it: the
sum of the weights appended in one call equals the final running position
minus the initial one (the chord from the line's entry into the voxel of the
rounded start point up to the first crossing at or past the clipped bound
`amax`), and this sum is at least `(1 - 10^-4) * d12` where `d12` is the
normalisation constant times the Euclidean distance between start and stop
scaled by the voxel size (hypothesis `IsD12`).  The sum is *not* equal to that
distance within a `10^-4` relative tolerance in general: the code traces the
whole chord of the first and last voxels, see the counterexample. -/
theorem c1_length_conservation (start_point stop_point voxel_size : Coord3)
    (nc d12 : ℚ) (h : IsD12 start_point stop_point voxel_size nc d12)
    (hd : 0 < d12) :
    sumValues (RayTraceVoxelsOnCartesianGrid start_point stop_point d12) =
      (rayTraceRun start_point stop_point d12).2.a -
        (rayTraceState0 start_point stop_point d12).a ∧
    9999 / 10000 * d12 ≤
      sumValues (RayTraceVoxelsOnCartesianGrid start_point stop_point d12) := by
  have hsum := rtLoop_sum (rayTraceCtx start_point stop_point d12)
    (rtMeasure (rayTraceCtx start_point stop_point d12)
      (rayTraceState0 start_point stop_point d12))
    (rayTraceState0 start_point stop_point d12)
  constructor
  · exact hsum
  · have hx : 0 < (rayTraceCtx start_point stop_point d12).inc_x := by
      rw [rayTraceCtx_inc_x]
      exact incOf_pos hd _
    have hy : 0 < (rayTraceCtx start_point stop_point d12).inc_y := by
      rw [rayTraceCtx_inc_y]
      exact incOf_pos hd _
    have hz : 0 < (rayTraceCtx start_point stop_point d12).inc_z := by
      rw [rayTraceCtx_inc_z]
      exact incOf_pos hd _
    have hfin := rtLoop_final_ge (rayTraceCtx start_point stop_point d12) hx hy hz
      (rtMeasure (rayTraceCtx start_point stop_point d12)
        (rayTraceState0 start_point stop_point d12))
      (rayTraceState0 start_point stop_point d12) (le_refl _)
    have hle := not_lt.mp hfin
    have hmax := rayTraceCtx_amax_ge (le_of_lt hd) start_point stop_point
    have ha0 := rayTraceState0_a_nonpos (le_of_lt hd) start_point stop_point
    show 9999 / 10000 * d12 ≤
      sumValues (rtLoop (rayTraceCtx start_point stop_point d12)
        (rtMeasure (rayTraceCtx start_point stop_point d12)
          (rayTraceState0 start_point stop_point d12))
        (rayTraceState0 start_point stop_point d12)).1
    linarith

/-- C1 counterexample.  Scenario A (`start=(0.5,0.5,0.5)`, `stop=(3.5,0.5,0.5)`,
`voxel_size=(1,1,1)`, `normalisation=1`, so `d12 = 3` and the scaled Euclidean
distance is `3`): the sum of unnormalised lengths the call appends is `4`, off
by a full voxel length, far outside the `10^-4` relative tolerance the claim
allows.  This refutes "the sum of the unnormalized lengths ... equals the
Euclidean distance between start_point and stop_point". -/
theorem c1_length_conservation_cex :
    IsD12 ⟨1/2, 1/2, 1/2⟩ ⟨7/2, 1/2, 1/2⟩ ⟨1, 1, 1⟩ 1 3 ∧
    sumValues (RayTraceVoxelsOnCartesianGrid ⟨1/2, 1/2, 1/2⟩ ⟨7/2, 1/2, 1/2⟩ 3) = 4 ∧
    3 * (1 / 10000) <
      |sumValues (RayTraceVoxelsOnCartesianGrid ⟨1/2, 1/2, 1/2⟩ ⟨7/2, 1/2, 1/2⟩ 3) - 3| :=
  ⟨⟨3, by norm_num, by decide, by norm_num⟩, by decide, by decide⟩

/-- C1 witness: the amended theorem applied to Scenario A (`d12 = 3`). -/
theorem c1_length_conservation_witness :
    (sumValues (RayTraceVoxelsOnCartesianGrid ⟨1/2, 1/2, 1/2⟩ ⟨7/2, 1/2, 1/2⟩ 3) =
      (rayTraceRun ⟨1/2, 1/2, 1/2⟩ ⟨7/2, 1/2, 1/2⟩ 3).2.a -
        (rayTraceState0 ⟨1/2, 1/2, 1/2⟩ ⟨7/2, 1/2, 1/2⟩ 3).a) ∧
    9999 / 10000 * 3 ≤
      sumValues (RayTraceVoxelsOnCartesianGrid ⟨1/2, 1/2, 1/2⟩ ⟨7/2, 1/2, 1/2⟩ 3) :=
  c1_length_conservation ⟨1/2, 1/2, 1/2⟩ ⟨7/2, 1/2, 1/2⟩ ⟨1, 1, 1⟩ 1 3
    ⟨3, by norm_num, by decide, by norm_num⟩ (by norm_num)

/-- C2 (confirmed).  Face-adjacency: for every input and every pair of
consecutive entries appended in one call, the voxel indices differ by exactly
one unit along exactly one axis (`voxAdj` is Manhattan distance one, which
also rules out diagonal jumps, skipped voxels and repeated indices). -/
theorem c2_face_adjacency (start_point stop_point : Coord3) (d12 : ℚ) :
    List.Chain' voxAdj
      ((RayTraceVoxelsOnCartesianGrid start_point stop_point d12).map
        ProjMatrixElem.voxel) := by
  exact rtLoop_chain (rayTraceCtx start_point stop_point d12)
    (by rw [rayTraceCtx_sign_x]; exact signOf_eq_one_or _)
    (by rw [rayTraceCtx_sign_y]; exact signOf_eq_one_or _)
    (by rw [rayTraceCtx_sign_z]; exact signOf_eq_one_or _)
    _ _

/-- C3 (confirmed).  Degenerate input: when `start_point = stop_point` the
call terminates (the loop guard fails immediately: `d12 = 0` by `IsD12`, so
`a = 0 = amax`) and appends no entries — within the claim's allowance of
"zero entries or one zero-length entry". -/
theorem c3_degenerate_input (start_point stop_point voxel_size : Coord3)
    (nc d12 : ℚ) (hss : stop_point = start_point)
    (h : IsD12 start_point stop_point voxel_size nc d12) :
    RayTraceVoxelsOnCartesianGrid start_point stop_point d12 = [] := by
  subst hss
  have hd0 := d12_eq_zero_of_degenerate stop_point voxel_size nc d12 h
  subst hd0
  rw [RayTraceVoxelsOnCartesianGrid, run_empty_of_nonpos (le_refl 0)]

/-- C3 witness: a concrete degenerate call appends nothing. -/
theorem c3_degenerate_input_witness :
    RayTraceVoxelsOnCartesianGrid ⟨1, 2, 3⟩ ⟨1, 2, 3⟩ 0 = [] :=
  c3_degenerate_input ⟨1, 2, 3⟩ ⟨1, 2, 3⟩ ⟨1, 1, 1⟩ 5 0 rfl
    ⟨0, le_refl 0, by decide, by norm_num⟩

/-- C4 (code bug).  Monotonic coverage fails at the stop end for long
axis-parallel segments: for `start=(0,0,0)`, `stop=(9999.7,0,0)`,
`voxel_size=(1,1,1)`, `normalisation=1` (so `d12 = 9999.7`), the voxel
containing the stop point is `x = round(9999.7) = 10000`, but the last entry
the code appends carries `x = 9999`: the `0.9999` clipping of `a_end`
(source line 121), documented as compensating a rounding-level error only,
removes the entire final voxel once the segment spans `≥ 10^4` voxels. -/
theorem c4_monotonic_coverage_bug :
    IsD12 ⟨0, 0, 0⟩ ⟨99997 / 10, 0, 0⟩ ⟨1, 1, 1⟩ 1 (99997 / 10) ∧
    stirRound ((99997 : ℚ) / 10) = 10000 ∧
    (RayTraceVoxelsOnCartesianGrid ⟨0, 0, 0⟩ ⟨99997 / 10, 0, 0⟩
      (99997 / 10)).getLast? = some ⟨⟨9999, 0, 0⟩, 1⟩ := by
  refine ⟨⟨99997 / 10, by norm_num, by decide, by norm_num⟩, by decide, ?_⟩
  show (rayTraceRun ⟨0, 0, 0⟩ ⟨99997 / 10, 0, 0⟩ (99997 / 10)).1.getLast? = _
  unfold rayTraceRun
  rw [c4_ctx, c4_state0, c4_fuel,
    c4_run 10000 0 10001 (by norm_num) (by norm_num),
    show (10000 : ℕ) = 9999 + 1 by norm_num, segList_getLast 9999 0]
  decide

/-- C5 (amended).  Tie-break policy as the code actually implements it: the
nested strict comparisons select, deterministically, the *last* axis in the
order x, y, z among those attaining the minimal pending crossing (z beats y
beats x on ties), not the first; and a corner crossing (two axes tied at the
minimum) emits *two* entries — after the tied z step, the following iteration
steps y with a zero-length entry.  (The claim's "priority x, then y, then z"
and "does not emit two entries for a single corner-crossing event" are both
refuted by the counterexample.) -/
theorem c5_tie_break (c : RtCtx) (s : RtState) :
    rtSelect s =
      (if s.az ≤ s.ax ∧ s.az ≤ s.ay then Axis.Z
       else if s.ay ≤ s.ax then Axis.Y else Axis.X) ∧
    (s.ay = s.az → s.az ≤ s.ax → 0 < c.inc_z →
      (rtStep c ((rtStep c s).2)).1.value = 0) := by
  constructor
  · by_cases hzx : s.az ≤ s.ax
    · by_cases hzy : s.az ≤ s.ay
      · rw [if_pos ⟨hzx, hzy⟩, rtSelect_eq_Z_iff]
        by_cases hxy : s.ax < s.ay
        · exact Or.inl ⟨hxy, not_lt.mpr hzx⟩
        · exact Or.inr ⟨hxy, not_lt.mpr hzy⟩
      · rw [if_neg (fun hc => hzy hc.2)]
        by_cases hyx : s.ay ≤ s.ax
        · rw [if_pos hyx, rtSelect_eq_Y_iff]
          exact ⟨not_lt.mpr hyx, lt_of_not_le hzy⟩
        · exact absurd (le_of_lt (lt_of_le_of_lt hzx (lt_of_not_le hyx))) hzy
    · rw [if_neg (fun hc => hzx hc.1)]
      by_cases hyx : s.ay ≤ s.ax
      · rw [if_pos hyx, rtSelect_eq_Y_iff]
        exact ⟨not_lt.mpr hyx, lt_of_le_of_lt hyx (lt_of_not_le hzx)⟩
      · rw [if_neg hyx, rtSelect_eq_X_iff]
        exact ⟨lt_of_not_le hyx, lt_of_not_le hzx⟩
  · intro hyz hzx hinc
    have hsel1 : rtSelect s = Axis.Z := by
      rw [rtSelect_eq_Z_iff]
      by_cases hxy : s.ax < s.ay
      · exact Or.inl ⟨hxy, not_lt.mpr (hyz ▸ hzx)⟩
      · exact Or.inr ⟨hxy, not_lt.mpr (le_of_eq hyz.symm)⟩
    set t : RtState :=
      { s with a := s.az, az := s.az + c.inc_z, vz := s.vz + c.sign_z } with ht
    have hs2 : (rtStep c s).2 = t := by
      simp [rtStep, hsel1, ht]
    rw [hs2]
    have hselt : rtSelect t = Axis.Y := by
      rw [rtSelect_eq_Y_iff]
      constructor
      · show ¬ s.ax < s.ay
        rw [hyz]
        exact not_lt.mpr hzx
      · show s.ay < s.az + c.inc_z
        rw [hyz]
        linarith
    have hv : (rtStep c t).1.value = t.ay - t.a := by
      simp only [rtStep, hselt]
    rw [hv]
    show s.ay - s.az = 0
    rw [hyz, sub_self]

/-- C5 counterexample.  For `start=(0,0,0)`, `stop=(2,2,0)`,
`voxel_size=(3,4,1)`, `normalisation=1` (so `d12 = 10`), the segment crosses
two exact x/y corners.  The appended sequence steps *y first* at each corner
(second entry is voxel `(0,1,0)`, not `(1,0,0)` as x-priority would give) and
each corner produces an extra zero-length entry (entries 2 and 4), so the
call emits two entries for one geometric corner-crossing event. -/
theorem c5_tie_break_cex :
    IsD12 ⟨0, 0, 0⟩ ⟨2, 2, 0⟩ ⟨3, 4, 1⟩ 1 10 ∧
    RayTraceVoxelsOnCartesianGrid ⟨0, 0, 0⟩ ⟨2, 2, 0⟩ 10 =
      [⟨⟨0, 0, 0⟩, 5⟩, ⟨⟨0, 1, 0⟩, 0⟩, ⟨⟨1, 1, 0⟩, 5⟩, ⟨⟨1, 2, 0⟩, 0⟩,
        ⟨⟨2, 2, 0⟩, 5⟩] ∧
    ¬ (∀ e ∈ RayTraceVoxelsOnCartesianGrid ⟨0, 0, 0⟩ ⟨2, 2, 0⟩ 10, 0 < e.value) :=
  ⟨⟨10, by norm_num, by decide, by norm_num⟩, by decide, by decide⟩

/-- C5 witness: the amended theorem at a concrete tied state (`ay = az = 2 ≤
ax = 5`): z is selected, and the follow-up entry has zero length. -/
theorem c5_tie_break_witness :
    rtSelect (⟨0, 5, 2, 2, 0, 0, 0⟩ : RtState) = Axis.Z ∧
    (rtStep (⟨1, 1, 1, 0, 1, 1, 1⟩ : RtCtx)
      ((rtStep (⟨1, 1, 1, 0, 1, 1, 1⟩ : RtCtx) ⟨0, 5, 2, 2, 0, 0, 0⟩).2)).1.value = 0 := by
  constructor
  · rw [(c5_tie_break ⟨1, 1, 1, 0, 1, 1, 1⟩ ⟨0, 5, 2, 2, 0, 0, 0⟩).1]
    decide
  · exact (c5_tie_break ⟨1, 1, 1, 0, 1, 1, 1⟩ ⟨0, 5, 2, 2, 0, 0, 0⟩).2 rfl
      (by norm_num) (by norm_num)

/-- C6 (amended).  Scenario A as the code actually behaves: with
`start=(0.5,0.5,0.5)`, `stop=(3.5,0.5,0.5)`, `voxel_size=(1,1,1)`,
`normalisation=1` (so `d12 = 3`), the call appends exactly *4* entries, each
of length `1.0`, with voxel x-indices `1, 2, 3, 4` and y- and z-indices
constant at `1` (the boundary start point `0.5` rounds into voxel `1` and the
boundary stop point `3.5` rounds into voxel `4`, whose full chord is also
emitted). -/
theorem c6_scenario_a :
    IsD12 ⟨1/2, 1/2, 1/2⟩ ⟨7/2, 1/2, 1/2⟩ ⟨1, 1, 1⟩ 1 3 ∧
    RayTraceVoxelsOnCartesianGrid ⟨1/2, 1/2, 1/2⟩ ⟨7/2, 1/2, 1/2⟩ 3 =
      [⟨⟨1, 1, 1⟩, 1⟩, ⟨⟨2, 1, 1⟩, 1⟩, ⟨⟨3, 1, 1⟩, 1⟩, ⟨⟨4, 1, 1⟩, 1⟩] :=
  ⟨⟨3, by norm_num, by decide, by norm_num⟩, by decide⟩

/-- C6 counterexample.  Scenario A does not append 3 entries (it appends 4),
refuting "appends exactly 3 entries ... whose voxel x-indices step 0, 1, 2". -/
theorem c6_scenario_a_cex :
    IsD12 ⟨1/2, 1/2, 1/2⟩ ⟨7/2, 1/2, 1/2⟩ ⟨1, 1, 1⟩ 1 3 ∧
    (RayTraceVoxelsOnCartesianGrid ⟨1/2, 1/2, 1/2⟩ ⟨7/2, 1/2, 1/2⟩ 3).length ≠ 3 :=
  ⟨⟨3, by norm_num, by decide, by norm_num⟩, by decide⟩

/-- C7 (confirmed).  Normalisation homomorphism: replacing the normalisation
constant `nc` by `k * nc` (with `k > 0`) replaces `d12` by `k * d12`
(first conjunct), and the call with `k * d12` yields the same number of
entries with identical voxel indices in identical order and every weight
multiplied by `k` (`scaleElem k` keeps the voxel and scales the value). -/
theorem c7_normalisation_homomorphism (start_point stop_point voxel_size : Coord3)
    (nc d12 k : ℚ) (h : IsD12 start_point stop_point voxel_size nc d12)
    (hk : 0 < k) :
    IsD12 start_point stop_point voxel_size (k * nc) (k * d12) ∧
    RayTraceVoxelsOnCartesianGrid start_point stop_point (k * d12) =
      (RayTraceVoxelsOnCartesianGrid start_point stop_point d12).map (scaleElem k) := by
  constructor
  · obtain ⟨r, hr, hsq, hd⟩ := h
    exact ⟨r, hr, hsq, by rw [hd]; ring⟩
  · exact rayTrace_scale hk _ _ _

/-- C7 witness: doubling Scenario A's normalisation (`k = 2`, `d12 = 3`)
doubles every emitted length with identical voxels. -/
theorem c7_normalisation_homomorphism_witness :
    IsD12 ⟨1/2, 1/2, 1/2⟩ ⟨7/2, 1/2, 1/2⟩ ⟨1, 1, 1⟩ (2 * 1) (2 * 3) ∧
    RayTraceVoxelsOnCartesianGrid ⟨1/2, 1/2, 1/2⟩ ⟨7/2, 1/2, 1/2⟩ (2 * 3) =
      (RayTraceVoxelsOnCartesianGrid ⟨1/2, 1/2, 1/2⟩ ⟨7/2, 1/2, 1/2⟩ 3).map
        (scaleElem 2) :=
  c7_normalisation_homomorphism ⟨1/2, 1/2, 1/2⟩ ⟨7/2, 1/2, 1/2⟩ ⟨1, 1, 1⟩ 1 3 2
    ⟨3, by norm_num, by decide, by norm_num⟩ (by norm_num)

/-- C8 (amended).  Axis-parallel case: when `stop.x = start.x` (likewise y),
every appended entry carries the start voxel's index on that axis and that
axis is never stepped (the sentinel crossing is never selected, the final
current voxel is unchanged on that axis).  For the z axis the same holds for
the appended entries, but when *all three* axes are near zero the three
sentinels tie and the tie-break steps z once, after the single entry is
emitted; the z-axis final voxel is unchanged provided at least one of the x
or y direction components exceeds the near-zero threshold. -/
theorem c8_axis_parallel (start_point stop_point : Coord3) (d12 : ℚ) :
    (stop_point.x = start_point.x →
      (∀ e ∈ RayTraceVoxelsOnCartesianGrid start_point stop_point d12,
        e.voxel.x = stirRound start_point.x) ∧
      (rayTraceRun start_point stop_point d12).2.vx = stirRound start_point.x) ∧
    (stop_point.y = start_point.y →
      (∀ e ∈ RayTraceVoxelsOnCartesianGrid start_point stop_point d12,
        e.voxel.y = stirRound start_point.y) ∧
      (rayTraceRun start_point stop_point d12).2.vy = stirRound start_point.y) ∧
    (stop_point.z = start_point.z →
      (∀ e ∈ RayTraceVoxelsOnCartesianGrid start_point stop_point d12,
        e.voxel.z = stirRound start_point.z) ∧
      (small_difference < |stop_point.x - start_point.x| ∨
        small_difference < |stop_point.y - start_point.y| →
        (rayTraceRun start_point stop_point d12).2.vz = stirRound start_point.z)) := by
  obtain ⟨hent, hvx, hvy, hvz⟩ := c8_main start_point stop_point d12
  have hz_of : ∀ u v : ℚ, v = u → |v - u| ≤ small_difference := by
    intro u v hvu
    rw [hvu, sub_self, abs_zero]
    exact le_of_lt small_difference_pos
  refine ⟨?_, ?_, ?_⟩
  · intro hx
    have hzx := hz_of _ _ hx
    exact ⟨fun e he => (hent e he).1 hzx, hvx hzx⟩
  · intro hy
    have hzy := hz_of _ _ hy
    exact ⟨fun e he => (hent e he).2.1 hzy, hvy hzy⟩
  · intro hz
    have hzz := hz_of _ _ hz
    refine ⟨fun e he => (hent e he).2.2 hzz, ?_⟩
    intro hsome
    apply hvz hzz
    rcases hsome with h | h
    · exact fun hc => absurd hc.1 (not_le.mpr h)
    · exact fun hc => absurd hc.2 (not_le.mpr h)

/-- C8 counterexample.  For `start=(0,0,0)`, `stop=(10^-6,10^-6,0)`,
`voxel_size=(3,4,1)`, `normalisation=1` (so `d12 = 1/200000 > 0`), all three
direction components are near zero and `stop.z = start.z` exactly; the three
sentinel crossings tie as the minimum, the tie-break selects z, and the
current z-voxel is stepped from `round(0) = 0` to `1` while the loop runs —
refuting "the near-zero sentinel crossing value for that axis never becomes
the minimum before the loop terminates". -/
theorem c8_axis_parallel_cex :
    IsD12 ⟨0, 0, 0⟩ ⟨1/1000000, 1/1000000, 0⟩ ⟨3, 4, 1⟩ 1 (1/200000) ∧
    (⟨1/1000000, 1/1000000, 0⟩ : Coord3).z = (⟨0, 0, 0⟩ : Coord3).z ∧
    (rayTraceRun ⟨0, 0, 0⟩ ⟨1/1000000, 1/1000000, 0⟩ (1/200000)).2.vz = 1 ∧
    stirRound ((⟨0, 0, 0⟩ : Coord3).z) = 0 :=
  ⟨⟨1/200000, by norm_num, by decide, by norm_num⟩, rfl, by decide, by decide⟩

/-- C8 witness: the amended theorem's y-clause at Scenario A
(`stop.y = start.y = 0.5`): the entry `(1,1,1)` carries the start y-voxel
`round(0.5) = 1` and the final state's y-voxel is unchanged. -/
theorem c8_axis_parallel_witness :
    (ProjMatrixElem.mk ⟨1, 1, 1⟩ 1).voxel.y = stirRound ((1 : ℚ)/2) ∧
    (rayTraceRun ⟨1/2, 1/2, 1/2⟩ ⟨7/2, 1/2, 1/2⟩ 3).2.vy = stirRound ((1 : ℚ)/2) := by
  have h := (c8_axis_parallel ⟨1/2, 1/2, 1/2⟩ ⟨7/2, 1/2, 1/2⟩ 3).2.1 rfl
  exact ⟨h.1 ⟨⟨1, 1, 1⟩, 1⟩ (by decide), h.2⟩

/-- C9 (amended).  Assertion validity holds whenever `d12 > 0` and at least
one direction component exceeds the near-zero threshold: then for every
near-zero axis the substituted sentinel values (`a?end` and the advanced
`a?`) are strictly greater than `amax`, so all six `assert`s of the source
hold.  (Without that proviso the assertions can fail, see the
counterexample where all three components are near zero.) -/
theorem c9_assertion_validity (start_point stop_point : Coord3) (d12 : ℚ)
    (hd : 0 < d12)
    (hsome : small_difference < |stop_point.x - start_point.x| ∨
      small_difference < |stop_point.y - start_point.y| ∨
      small_difference < |stop_point.z - start_point.z|) :
    rayTraceAssertsHold start_point stop_point d12 := by
  have hamax : (rayTraceCtx start_point stop_point d12).amax < d12 * 1000000 := by
    rcases hsome with h | h | h
    · exact lt_of_le_of_lt (amax_le_aend_x _ _ _)
        (aendOf_lt_sentinel hd (not_le.mpr h))
    · exact lt_of_le_of_lt (amax_le_aend_y _ _ _)
        (aendOf_lt_sentinel hd (not_le.mpr h))
    · exact lt_of_le_of_lt (amax_le_aend_z _ _ _)
        (aendOf_lt_sentinel hd (not_le.mpr h))
  unfold rayTraceAssertsHold
  refine ⟨?_, ?_, ?_, ?_, ?_, ?_⟩
  · by_cases hzx : |stop_point.x - start_point.x| ≤ small_difference
    · exact Or.inr (by rw [aendOf_of_near hzx]; exact hamax)
    · exact Or.inl (not_le.mp hzx)
  · by_cases hzy : |stop_point.y - start_point.y| ≤ small_difference
    · exact Or.inr (by rw [aendOf_of_near hzy]; exact hamax)
    · exact Or.inl (not_le.mp hzy)
  · by_cases hzz : |stop_point.z - start_point.z| ≤ small_difference
    · exact Or.inr (by rw [aendOf_of_near hzz]; exact hamax)
    · exact Or.inl (not_le.mp hzz)
  · by_cases hzx : |stop_point.x - start_point.x| ≤ small_difference
    · exact Or.inr (by rw [a1Of_of_near hzx]; exact hamax)
    · exact Or.inl hzx
  · by_cases hzy : |stop_point.y - start_point.y| ≤ small_difference
    · exact Or.inr (by rw [a1Of_of_near hzy]; exact hamax)
    · exact Or.inl hzy
  · by_cases hzz : |stop_point.z - start_point.z| ≤ small_difference
    · exact Or.inr (by rw [a1Of_of_near hzz]; exact hamax)
    · exact Or.inl hzz

/-- C9 counterexample.  For `start=(0,0,0)`, `stop=(10^-6,0,0)`,
`voxel_size=(1,1,1)`, `normalisation=1` (so `d12 = 10^-6`, a legal input with
strictly positive voxel sizes and finite coordinates), all three direction
components are near zero, every `a?end` equals the sentinel `d12 * 10^6`, so
`amax` equals the sentinels and the strict comparisons `a?end > amax` of the
source's assertions fail: the assertion error branch is reachable. -/
theorem c9_assertion_validity_cex :
    IsD12 ⟨0, 0, 0⟩ ⟨1/1000000, 0, 0⟩ ⟨1, 1, 1⟩ 1 (1/1000000) ∧
    ¬ rayTraceAssertsHold ⟨0, 0, 0⟩ ⟨1/1000000, 0, 0⟩ (1/1000000) :=
  ⟨⟨1/1000000, by norm_num, by decide, by norm_num⟩, by decide⟩

/-- C9 witness: the amended theorem at `start=(0,0,0)`, `stop=(3,0,0)`,
`d12 = 3`. -/
theorem c9_assertion_validity_witness :
    rayTraceAssertsHold ⟨0, 0, 0⟩ ⟨3, 0, 0⟩ 3 :=
  c9_assertion_validity ⟨0, 0, 0⟩ ⟨3, 0, 0⟩ 3 (by norm_num)
    (Or.inl (by norm_num [small_difference]))

/-- C10 (confirmed).  Nonnegative weights: for every input with nonnegative
normalisation constant (`IsD12` then forces `0 ≤ d12`), every weight appended
to the accumulator is nonnegative — the running position `a` never exceeds
any pending crossing, and each emitted length is the difference between the
selected minimal crossing and `a`. -/
theorem c10_nonneg_weights (start_point stop_point voxel_size : Coord3)
    (nc d12 : ℚ) (h : IsD12 start_point stop_point voxel_size nc d12)
    (hnc : 0 ≤ nc) :
    ∀ e ∈ RayTraceVoxelsOnCartesianGrid start_point stop_point d12,
      0 ≤ e.value := by
  have hd : 0 ≤ d12 := by
    obtain ⟨r, hr, _, hdv⟩ := h
    rw [hdv]
    exact mul_nonneg hr hnc
  have hx : 0 ≤ (rayTraceCtx start_point stop_point d12).inc_x := by
    rw [rayTraceCtx_inc_x]
    exact incOf_nonneg hd _
  have hy : 0 ≤ (rayTraceCtx start_point stop_point d12).inc_y := by
    rw [rayTraceCtx_inc_y]
    exact incOf_nonneg hd _
  have hz : 0 ≤ (rayTraceCtx start_point stop_point d12).inc_z := by
    rw [rayTraceCtx_inc_z]
    exact incOf_nonneg hd _
  exact rtLoop_entries (rayTraceCtx start_point stop_point d12)
    (fun s => s.a ≤ s.ax ∧ s.a ≤ s.ay ∧ s.a ≤ s.az)
    (fun e => 0 ≤ e.value)
    (fun s _ _ => rtStep_mono_state _ hx hy hz s)
    (fun s _ hP => rtStep_value_nonneg _ s hP)
    _ _ (rayTraceState0_mono hd _ _)

/-- C10 witness: the theorem at Scenario A, instantiated at its first
entry. -/
theorem c10_nonneg_weights_witness :
    (0 : ℚ) ≤ (ProjMatrixElem.mk ⟨1, 1, 1⟩ 1).value :=
  c10_nonneg_weights ⟨1/2, 1/2, 1/2⟩ ⟨7/2, 1/2, 1/2⟩ ⟨1, 1, 1⟩ 1 3
    ⟨3, by norm_num, by decide, by norm_num⟩ (by norm_num) ⟨⟨1, 1, 1⟩, 1⟩
    (by decide)
